import Mathlib

/-!
# GoSmokeLogger: the Session Ledger (`domain/smoke_logger.go`)

A shallow embedding of the `SmokeLogger` type and its methods, and of the part
of the SQLite store that its SQL statements use.

Modelling conventions.

* Go `int` and SQLite `INTEGER` are mathematical integers (`Int`); the counter
  and the row ids stay far from the 64-bit bounds.
* A `time.Time` is an opaque, totally ordered instant (`Time := Nat`); the zero
  `time.Time` is `0`.  Every call of `time.Now()` is an explicit argument of the
  operation that makes it.
* The `*sql.DB` handle is the value of the two tables it gives access to
  (`DB`).  A table is the list of its rows in rowid order together with its
  `sqlite_sequence` counter (`AUTOINCREMENT`).  Statements on the store do not
  fail.
* A Go `map[int]T` is a finite map with unique keys (`AList`).
* `log.Fatalf` ends the process: an operation that reaches it returns
  `Except.error` with the reason and the ledger as it was at that point.
-/

namespace Domain

/-! ## Data model -/

/-- An instant, as returned by `time.Now()` and stored in a `DATETIME` column. -/
abbrev Time := Nat

/-- The Go struct `SmokeEntry`, also a row of the table `smoke_entries`. -/
structure SmokeEntry where
  ID : Int
  TS : Time
  Value : Int
deriving DecidableEq, Repr

/-- The Go struct `DayEntry`, also a row of the table `days`; a nil `EndTS`
(SQL `NULL`) is `none`. -/
structure DayEntry where
  ID : Int
  StartTS : Time
  EndTS : Option Time
deriving DecidableEq, Repr

/-- The zero value of `SmokeEntry`. -/
instance : Inhabited SmokeEntry := ⟨⟨0, 0, 0⟩⟩

/-- The zero value of `DayEntry`. -/
instance : Inhabited DayEntry := ⟨⟨0, 0, none⟩⟩

/-- The store: both tables, rows in rowid order, each with the largest rowid
that `AUTOINCREMENT` has recorded for it in `sqlite_sequence`. -/
structure DB where
  smoke_entries : List SmokeEntry
  smoke_entries_seq : Int
  days : List DayEntry
  days_seq : Int
deriving DecidableEq, Repr

/-- A Go `map[int]T`. -/
abbrev GoMap (α : Type) := AList (fun _ : Int => α)

/-- Go's `m[k]`: the value under `k`, or the zero value when `k` is absent. -/
def GoMap.get {α : Type} [Inhabited α] (m : GoMap α) (k : Int) : α :=
  (m.lookup k).getD default

/-- The Go struct `SmokeLogger`. -/
structure SmokeLogger where
  db : DB
  Entries : GoMap SmokeEntry
  Days : GoMap DayEntry
  Counter : Int
  CurrentDay : Int
deriving DecidableEq

/-- Why the process was ended by `log.Fatalf` (or by a nil dereference). -/
inductive Fatal where
  | dayNotFound (day : Int)
  | nilEntry
deriving DecidableEq, Repr

/-- The end of the process: the reason, and the ledger at that point. -/
structure Crash where
  reason : Fatal
  sl : SmokeLogger
deriving DecidableEq

/-! ## The store: one definition per SQL statement of the source -/

/-- The store before any table has a row. -/
def emptyDB : DB := ⟨[], 0, [], 0⟩

/-- The largest of a list of rowids, `0` for none. -/
def maxId (ids : List Int) : Int := ids.foldl max 0

/-- The rowid `AUTOINCREMENT` gives to the next row: one more than the largest
rowid the table holds or ever held. -/
def nextRowid (ids : List Int) (seq : Int) : Int := max (maxId ids) seq + 1

/-- The id the store gives to the next row of `smoke_entries`. -/
def nextEntryId (db : DB) : Int :=
  nextRowid (db.smoke_entries.map SmokeEntry.ID) db.smoke_entries_seq

/-- The id the store gives to the next row of `days`. -/
def nextDayId (db : DB) : Int :=
  nextRowid (db.days.map DayEntry.ID) db.days_seq

/-- `SELECT COUNT(id) AS count FROM days`. -/
def countDays (db : DB) : Int := db.days.length

/-- `INSERT INTO days (start_ts, end_ts) VALUES (?, ?)`, with its
`LastInsertId`. -/
def insertDay (db : DB) (start : Time) (end_ts : Option Time) : DB × Int :=
  let id := nextDayId db
  ({ db with days := db.days ++ [⟨id, start, end_ts⟩], days_seq := id }, id)

/-- `INSERT INTO smoke_entries (ts,value) VALUES (?, ?)`, with its
`LastInsertId`. -/
def insertEntry (db : DB) (ts : Time) (value : Int) : DB × Int :=
  let id := nextEntryId db
  ({ db with smoke_entries := db.smoke_entries ++ [⟨id, ts, value⟩],
             smoke_entries_seq := id }, id)

/-- `SELECT id, ts, value FROM smoke_entries WHERE id = ?` (`QueryRow`: the
first row, if any). -/
def selectEntryById (db : DB) (id : Int) : Option SmokeEntry :=
  db.smoke_entries.find? (fun e => e.ID == id)

/-- `DELETE FROM smoke_entries WHERE id = ?`. -/
def deleteEntryById (db : DB) (id : Int) : DB :=
  { db with smoke_entries := db.smoke_entries.filter (fun e => e.ID != id) }

/-- `UPDATE days SET end_ts = ? WHERE end_ts IS NULL`. -/
def closeOpenDays (db : DB) (t : Time) : DB :=
  let close := fun (d : DayEntry) => if d.EndTS = none then { d with EndTS := some t } else d
  { db with days := db.days.map close }

/-- `SELECT id, ts, value FROM smoke_entries WHERE ts BETWEEN ? AND ? ORDER BY ts`
(rows of equal `ts` stay in rowid order). -/
def selectEntriesBetween (db : DB) (lo hi : Time) : List SmokeEntry :=
  (db.smoke_entries.filter (fun e => decide (lo ≤ e.TS) && decide (e.TS ≤ hi))).insertionSort
    (fun a b => a.TS ≤ b.TS)

/-- `SELECT id, start_ts, end_ts FROM days ORDER BY start_ts`
(rows of equal `start_ts` stay in rowid order). -/
def selectDaysOrdered (db : DB) : List DayEntry :=
  db.days.insertionSort (fun a b => a.StartTS ≤ b.StartTS)

/-- `SELECT id, ts, value FROM smoke_entries`. -/
def selectAllEntries (db : DB) : List SmokeEntry := db.smoke_entries

/-- `DELETE FROM smoke_entries; DELETE FROM days;` (the sequences stay). -/
def truncateAll (db : DB) : DB := { db with smoke_entries := [], days := [] }

/-! ## The ledger: the methods of `SmokeLogger` -/

/-- `LoadEntriesByDay`: the rows in the window of `day`, whose end is `now`
when `day.EndTS` is nil.  The second component is the ledger after the call. -/
def LoadEntriesByDay (sl : SmokeLogger) (day : DayEntry) (now : Time) :
    List SmokeEntry × SmokeLogger :=
  let endTS := match day.EndTS with
    | some e => e
    | none => now
  (selectEntriesBetween sl.db day.StartTS endTS, sl)

/-- `loadDays`: every row of `days`, in `start_ts` order, is put into `Days`
and becomes `CurrentDay` in turn. -/
def loadDays (sl : SmokeLogger) : SmokeLogger :=
  (selectDaysOrdered sl.db).foldl
    (fun s day => { s with Days := s.Days.insert day.ID day, CurrentDay := day.ID }) sl

/-- `InitDB`: a first session is inserted at `now` when `days` is empty, the
sessions are loaded, and `LoadEntriesByDay` is called at `now2` for
`Days[CurrentDay]`; what that call returns is dropped. -/
def InitDB (sl : SmokeLogger) (now now2 : Time) : SmokeLogger :=
  let db := if countDays sl.db = 0 then (insertDay sl.db now none).1 else sl.db
  let sl := loadDays { sl with db := db }
  (LoadEntriesByDay sl (sl.Days.get sl.CurrentDay) now2).2

/-- `NewSmokeLogger`: a ledger with empty maps and zero counters, then
`InitDB`. -/
def NewSmokeLogger (db : DB) (now now2 : Time) : SmokeLogger :=
  InitDB ⟨db, ∅, ∅, 0, 0⟩ now now2

/-- `ClearDB`. -/
def ClearDB (sl : SmokeLogger) : SmokeLogger := { sl with db := truncateAll sl.db }

/-- `LoadEntries`: every row of `smoke_entries` is put into `Entries` and its
value becomes `Counter` in turn.  The first component is the map returned. -/
def LoadEntries (sl : SmokeLogger) : GoMap SmokeEntry × SmokeLogger :=
  let sl := (selectAllEntries sl.db).foldl
    (fun s e => { s with Entries := s.Entries.insert e.ID e, Counter := e.Value }) sl
  (sl.Entries, sl)

/-- `getEntryById`: the row with that id, or nil. -/
def getEntryById (sl : SmokeLogger) (id : Int) : Option SmokeEntry :=
  selectEntryById sl.db id

/-- `AddEntry` at time `now`: the counter goes up by one, a row with that value
is inserted and read back by its id, and put into `Entries`.  Returning
`*entry` for a nil `entry` ends the process. -/
def AddEntry (sl : SmokeLogger) (now : Time) : Except Crash (SmokeEntry × SmokeLogger) :=
  let sl := { sl with Counter := sl.Counter + 1 }
  let r := insertEntry sl.db now sl.Counter
  let sl := { sl with db := r.1 }
  match getEntryById sl r.2 with
  | none => .error ⟨.nilEntry, sl⟩
  | some entry => .ok (entry, { sl with Entries := sl.Entries.insert entry.ID entry })

/-- The loop of `DeleteEntry`: starting from `0`, the counter takes every
larger `Value` it meets. -/
def maxValue (m : GoMap SmokeEntry) : Int :=
  m.entries.foldl (fun c p => if p.2.Value > c then p.2.Value else c) 0

/-- `DeleteEntry`: the row is deleted from the store, the key from `Entries`,
and `Counter` is recomputed over what `Entries` still holds. -/
def DeleteEntry (sl : SmokeLogger) (id : Int) : SmokeLogger :=
  let sl := { sl with db := deleteEntryById sl.db id }
  let sl := { sl with Entries := sl.Entries.erase id }
  { sl with Counter := maxValue sl.Entries }

/-- `NewDay`: at `now` every open row of `days` is closed and a new open row is
inserted; its id becomes `CurrentDay` and `Days` gets a session under it whose
start is a second reading `now2` of the clock. -/
def NewDay (sl : SmokeLogger) (now now2 : Time) : SmokeLogger :=
  let db := closeOpenDays sl.db now
  let r := insertDay db now none
  let sl := { sl with db := r.1, CurrentDay := r.2 }
  { sl with Days := sl.Days.insert sl.CurrentDay ⟨sl.CurrentDay, now2, none⟩ }

/-- `NextDay`: `CurrentDay` goes up by one; without a session under it the
process ends; otherwise `Entries` is replaced by the rows loaded for that
session. -/
def NextDay (sl : SmokeLogger) (now : Time) : Except Crash SmokeLogger :=
  let sl := { sl with CurrentDay := sl.CurrentDay + 1 }
  match sl.Days.lookup sl.CurrentDay with
  | none => .error ⟨.dayNotFound sl.CurrentDay, sl⟩
  | some day =>
    let r := LoadEntriesByDay sl day now
    let sl := { r.2 with Entries := ∅ }
    .ok (r.1.foldl (fun s e => { s with Entries := s.Entries.insert e.ID e }) sl)

/-- `PrevDay`: `CurrentDay` goes down by one; without a session under it the
process ends; otherwise `Entries` is replaced by the rows loaded for that
session. -/
def PrevDay (sl : SmokeLogger) (now : Time) : Except Crash SmokeLogger :=
  let sl := { sl with CurrentDay := sl.CurrentDay - 1 }
  match sl.Days.lookup sl.CurrentDay with
  | none => .error ⟨.dayNotFound sl.CurrentDay, sl⟩
  | some day =>
    let r := LoadEntriesByDay sl day now
    let sl := { r.2 with Entries := ∅ }
    .ok (r.1.foldl (fun s e => { s with Entries := s.Entries.insert e.ID e }) sl)

/-! ## Calls and reachable ledgers -/

/-- One call of a method of the ledger, with the readings of the clock it makes. -/
inductive Op where
  | addEntry (now : Time)
  | deleteEntry (id : Int)
  | newDay (now now2 : Time)
  | nextDay (now : Time)
  | prevDay (now : Time)
  | initDB (now now2 : Time)
deriving DecidableEq, Repr

/-- The ledger after one call, unless the call ends the process. -/
def step (sl : SmokeLogger) : Op → Except Crash SmokeLogger
  | .addEntry now => (AddEntry sl now).map (fun r => r.2)
  | .deleteEntry id => .ok (DeleteEntry sl id)
  | .newDay now now2 => .ok (NewDay sl now now2)
  | .nextDay now => NextDay sl now
  | .prevDay now => PrevDay sl now
  | .initDB now now2 => .ok (InitDB sl now now2)

/-- The ledger after a sequence of calls, unless one of them ends the process. -/
def run (sl : SmokeLogger) : List Op → Except Crash SmokeLogger
  | [] => .ok sl
  | op :: ops =>
    match step sl op with
    | .error c => .error c
    | .ok sl' => run sl' ops

/-- Whether the call is `AddEntry`. -/
def Op.isAdd : Op → Bool
  | .addEntry _ => true
  | _ => false

/-- Whether the call is `AddEntry` or `NewDay`. -/
def Op.isAddOrNewDay : Op → Bool
  | .addEntry _ => true
  | .newDay _ _ => true
  | _ => false

/-- The number of `AddEntry` calls in a sequence of calls. -/
def countAdds (ops : List Op) : Nat := (ops.filter Op.isAdd).length

/-- A store as a ledger can find it at time `c`: event ids are unique
(`PRIMARY KEY`) and no event is stamped later than `c`. -/
def StoreOK (db : DB) (c : Time) : Prop :=
  (db.smoke_entries.map SmokeEntry.ID).Nodup ∧ ∀ e ∈ db.smoke_entries, e.TS ≤ c

/-- The ledgers `sl` that the operations produce, with the latest reading `c` of
a clock that never runs backwards: bootstrap on a store, then any calls. -/
inductive Reachable : SmokeLogger → Time → Prop where
  | boot (db : DB) (c t1 t2 : Time) (hdb : StoreOK db c) (h1 : c ≤ t1) (h2 : t1 ≤ t2) :
      Reachable (NewSmokeLogger db t1 t2) t2
  | initDB {sl : SmokeLogger} {c : Time} (h : Reachable sl c) (t1 t2 : Time) (h1 : c ≤ t1)
      (h2 : t1 ≤ t2) : Reachable (InitDB sl t1 t2) t2
  | addEntry {sl sl' : SmokeLogger} {e : SmokeEntry} {c : Time} (h : Reachable sl c)
      (t : Time) (h1 : c ≤ t) (hok : AddEntry sl t = .ok (e, sl')) : Reachable sl' t
  | deleteEntry {sl : SmokeLogger} {c : Time} (h : Reachable sl c) (id : Int) :
      Reachable (DeleteEntry sl id) c
  | newDay {sl : SmokeLogger} {c : Time} (h : Reachable sl c) (t1 t2 : Time) (h1 : c ≤ t1)
      (h2 : t1 ≤ t2) : Reachable (NewDay sl t1 t2) t2
  | nextDay {sl sl' : SmokeLogger} {c : Time} (h : Reachable sl c) (t : Time) (h1 : c ≤ t)
      (hok : NextDay sl t = .ok sl') : Reachable sl' t
  | prevDay {sl sl' : SmokeLogger} {c : Time} (h : Reachable sl c) (t : Time) (h1 : c ≤ t)
      (hok : PrevDay sl t = .ok sl') : Reachable sl' t

/-! ## Auxiliary definitions for the proofs -/

/-- What `NextDay` and `PrevDay` both do once `CurrentDay` has moved. -/
def gotoCurrentDay (sl : SmokeLogger) (now : Time) : Except Crash SmokeLogger :=
  match sl.Days.lookup sl.CurrentDay with
  | none => .error ⟨.dayNotFound sl.CurrentDay, sl⟩
  | some day =>
    let r := LoadEntriesByDay sl day now
    let sl := { r.2 with Entries := ∅ }
    .ok (r.1.foldl (fun s e => { s with Entries := s.Entries.insert e.ID e }) sl)

/-- The map that the loop `for _, entry := range entries` of `NextDay` and
`PrevDay` builds from the empty map. -/
def mapOfEntries (l : List SmokeEntry) : GoMap SmokeEntry :=
  l.foldl (fun m e => m.insert e.ID e) ∅

/-- The invariant of reachable ledgers: event ids are unique in the store, no
stored event is stamped later than the clock, and `CurrentDay` is a key of
`Days`. -/
def Inv (sl : SmokeLogger) (c : Time) : Prop :=
  (sl.db.smoke_entries.map SmokeEntry.ID).Nodup ∧ (∀ e ∈ sl.db.smoke_entries, e.TS ≤ c) ∧
    (sl.Days.lookup sl.CurrentDay).isSome = true

/-- Whether the event loaded under `id` has the largest `Value` of the loaded
events. -/
def holdsMax (sl : SmokeLogger) (id : Int) : Prop :=
  ∃ e, sl.Entries.lookup id = some e ∧ ∀ k e', sl.Entries.lookup k = some e' → e'.Value ≤ e.Value

/-! ## Example ledgers -/

/-- The ledger bootstrapped at time 0 on the empty store. -/
def freshLedger : SmokeLogger := NewSmokeLogger emptyDB 0 0

/-- A store with one open session, started at 0, and one event recorded at 5. -/
def storeWithEvent : DB := ⟨[⟨1, 5, 1⟩], 1, [⟨1, 0, none⟩], 1⟩

/-- A ledger on its first session whose two stored events, of values 1 and 2,
are loaded, with `Counter` 2. -/
def ledgerTwoEvents : SmokeLogger :=
  ⟨⟨[⟨1, 1, 1⟩, ⟨2, 2, 2⟩], 2, [⟨1, 0, none⟩], 1⟩,
    ((∅ : GoMap SmokeEntry).insert 1 ⟨1, 1, 1⟩).insert 2 ⟨2, 2, 2⟩,
    (∅ : GoMap DayEntry).insert 1 ⟨1, 0, none⟩, 2, 1⟩

/-- The ledger after bootstrap on the empty store, `NewDay` and `PrevDay`: two
sessions, the first one in focus. -/
def ledgerBackOnDay1 : SmokeLogger :=
  ⟨⟨[], 0, [⟨1, 0, some 1⟩, ⟨2, 1, none⟩], 2⟩, ∅,
    ((∅ : GoMap DayEntry).insert 1 ⟨1, 0, none⟩).insert 2 ⟨2, 1, none⟩, 0, 1⟩

/-- The calls that lead from `freshLedger` to `ledgerStaleCounter`. -/
def staleCounterCalls : List Op :=
  [.addEntry 1, .addEntry 2, .newDay 3 3, .prevDay 4, .nextDay 5, .addEntry 6,
    .deleteEntry 3, .prevDay 7]

/-- The ledger after `staleCounterCalls`: the events of values 1 and 2 are
loaded and `Counter` is 0. -/
def ledgerStaleCounter : SmokeLogger :=
  ⟨⟨[⟨1, 1, 1⟩, ⟨2, 2, 2⟩], 3, [⟨1, 0, some 3⟩, ⟨2, 3, none⟩], 2⟩,
    ((∅ : GoMap SmokeEntry).insert 1 ⟨1, 1, 1⟩).insert 2 ⟨2, 2, 2⟩,
    ((∅ : GoMap DayEntry).insert 1 ⟨1, 0, none⟩).insert 2 ⟨2, 3, none⟩, 0, 1⟩

/-! ## The counter loop of `DeleteEntry` -/

theorem foldl_max_ge_init (l : List (Σ _ : Int, SmokeEntry)) (c : Int) :
    c ≤ l.foldl (fun c p => if p.2.Value > c then p.2.Value else c) c := by
  induction l generalizing c with
  | nil => simp
  | cons p l ih =>
    simp only [List.foldl_cons]
    refine le_trans ?_ (ih _)
    split <;> omega

theorem foldl_max_ge_mem (l : List (Σ _ : Int, SmokeEntry)) (c : Int)
    (p : Σ _ : Int, SmokeEntry) (hp : p ∈ l) :
    p.2.Value ≤ l.foldl (fun c p => if p.2.Value > c then p.2.Value else c) c := by
  induction l generalizing c with
  | nil => cases hp
  | cons q l ih =>
    simp only [List.foldl_cons]
    rcases List.mem_cons.mp hp with h | h
    · subst h
      refine le_trans ?_ (foldl_max_ge_init l _)
      split <;> omega
    · exact ih _ h

theorem foldl_max_attained (l : List (Σ _ : Int, SmokeEntry)) (c : Int) :
    l.foldl (fun c p => if p.2.Value > c then p.2.Value else c) c = c ∨
      ∃ p ∈ l, p.2.Value = l.foldl (fun c p => if p.2.Value > c then p.2.Value else c) c := by
  induction l generalizing c with
  | nil => simp
  | cons q l ih =>
    simp only [List.foldl_cons]
    rcases ih (if q.2.Value > c then q.2.Value else c) with h | ⟨p, hp, h⟩
    · by_cases hq : q.2.Value > c
      · right
        refine ⟨q, List.mem_cons_self _ _, ?_⟩
        rw [h, if_pos hq]
      · left
        rw [h, if_neg hq]
    · exact Or.inr ⟨p, List.mem_cons_of_mem _ hp, h⟩

theorem maxValue_nonneg (m : GoMap SmokeEntry) : 0 ≤ maxValue m :=
  foldl_max_ge_init _ 0

theorem maxValue_ge (m : GoMap SmokeEntry) (k : Int) (e : SmokeEntry)
    (h : m.lookup k = some e) : e.Value ≤ maxValue m :=
  foldl_max_ge_mem m.entries 0 ⟨k, e⟩ (AList.mem_lookup_iff.mp h)

theorem maxValue_attained (m : GoMap SmokeEntry) :
    maxValue m = 0 ∨ ∃ k e, m.lookup k = some e ∧ e.Value = maxValue m := by
  rcases foldl_max_attained m.entries 0 with h | ⟨⟨k, e⟩, hp, h⟩
  · exact Or.inl h
  · exact Or.inr ⟨k, e, AList.mem_lookup_iff.mpr hp, h⟩

theorem DeleteEntry_Entries (sl : SmokeLogger) (id : Int) :
    (DeleteEntry sl id).Entries = sl.Entries.erase id := rfl

theorem DeleteEntry_Counter (sl : SmokeLogger) (id : Int) :
    (DeleteEntry sl id).Counter = maxValue (sl.Entries.erase id) := rfl

/-! ## Row ids -/

theorem foldl_max_le (ids : List Int) (c : Int) : c ≤ ids.foldl max c := by
  induction ids generalizing c with
  | nil => simp
  | cons a l ih =>
    simp only [List.foldl_cons]
    exact le_trans (le_max_left c a) (ih _)

theorem maxId_ge (ids : List Int) (c x : Int) (hx : x ∈ ids) : x ≤ ids.foldl max c := by
  induction ids generalizing c with
  | nil => cases hx
  | cons a l ih =>
    simp only [List.foldl_cons]
    rcases List.mem_cons.mp hx with h | h
    · subst h
      exact le_trans (le_max_right c x) (foldl_max_le l _)
    · exact ih _ h

theorem lt_nextRowid (ids : List Int) (seq x : Int) (hx : x ∈ ids) : x < nextRowid ids seq := by
  have h := maxId_ge ids 0 x hx
  have h2 := le_max_left (maxId ids) seq
  unfold nextRowid maxId at *
  omega

theorem lt_nextEntryId (db : DB) (e : SmokeEntry) (he : e ∈ db.smoke_entries) :
    e.ID < nextEntryId db :=
  lt_nextRowid _ _ _ (List.mem_map_of_mem _ he)

theorem lt_nextDayId (db : DB) (d : DayEntry) (hd : d ∈ db.days) : d.ID < nextDayId db :=
  lt_nextRowid _ _ _ (List.mem_map_of_mem _ hd)

theorem nextDayId_closeOpenDays (db : DB) (t : Time) :
    nextDayId (closeOpenDays db t) = nextDayId db := by
  unfold nextDayId closeOpenDays
  simp only [List.map_map]
  congr 2
  funext d
  simp only [Function.comp]
  split <;> rfl

/-! ## `AddEntry` always returns -/

theorem selectEntryById_insertEntry (db : DB) (ts : Time) (v : Int) :
    selectEntryById (insertEntry db ts v).1 (insertEntry db ts v).2 =
      some ⟨nextEntryId db, ts, v⟩ := by
  have hnone : db.smoke_entries.find? (fun e => e.ID == nextEntryId db) = none := by
    rw [List.find?_eq_none]
    intro e he
    have := lt_nextEntryId db e he
    simp only [beq_iff_eq]
    omega
  simp [selectEntryById, insertEntry, List.find?_append, hnone]

theorem AddEntry_ok (sl : SmokeLogger) (now : Time) :
    AddEntry sl now = .ok (⟨nextEntryId sl.db, now, sl.Counter + 1⟩,
      { sl with
        db := (insertEntry sl.db now (sl.Counter + 1)).1
        Counter := sl.Counter + 1
        Entries := sl.Entries.insert (nextEntryId sl.db)
          ⟨nextEntryId sl.db, now, sl.Counter + 1⟩ }) := by
  simp only [AddEntry, getEntryById, selectEntryById_insertEntry]

/-! ## Loading rows into the maps -/

theorem foldl_days_fields (l : List DayEntry) (s : SmokeLogger) :
    (l.foldl (fun s day => { s with Days := s.Days.insert day.ID day, CurrentDay := day.ID })
        s).db = s.db ∧
    (l.foldl (fun s day => { s with Days := s.Days.insert day.ID day, CurrentDay := day.ID })
        s).Entries = s.Entries ∧
    (l.foldl (fun s day => { s with Days := s.Days.insert day.ID day, CurrentDay := day.ID })
        s).Counter = s.Counter := by
  induction l generalizing s with
  | nil => exact ⟨rfl, rfl, rfl⟩
  | cons a l ih =>
    simp only [List.foldl_cons]
    exact ih _

theorem foldl_days_current (l : List DayEntry) (s : SmokeLogger) (hl : l ≠ []) :
    ((l.foldl (fun s day => { s with Days := s.Days.insert day.ID day, CurrentDay := day.ID })
        s).Days.lookup
      (l.foldl (fun s day => { s with Days := s.Days.insert day.ID day, CurrentDay := day.ID })
        s).CurrentDay).isSome = true := by
  induction l using List.reverseRecOn with
  | nil => exact absurd rfl hl
  | append_singleton l a _ =>
    rw [List.foldl_append]
    simp only [List.foldl_cons, List.foldl_nil, AList.lookup_insert, Option.isSome_some]

theorem InitDB_fields (sl : SmokeLogger) (now now2 : Time) :
    (InitDB sl now now2).db.smoke_entries = sl.db.smoke_entries ∧
    (InitDB sl now now2).Entries = sl.Entries ∧
    (InitDB sl now now2).Counter = sl.Counter := by
  unfold InitDB LoadEntriesByDay loadDays
  simp only
  refine ⟨?_, (foldl_days_fields _ _).2.1, (foldl_days_fields _ _).2.2⟩
  rw [(foldl_days_fields _ _).1]
  simp only
  split <;> rfl

theorem InitDB_current (sl : SmokeLogger) (now now2 : Time) :
    ((InitDB sl now now2).Days.lookup (InitDB sl now now2).CurrentDay).isSome = true := by
  unfold InitDB LoadEntriesByDay loadDays
  simp only
  apply foldl_days_current
  intro h
  have hlen := congrArg List.length h
  simp only [selectDaysOrdered, List.length_insertionSort, List.length_nil] at hlen
  by_cases h0 : countDays sl.db = 0
  · simp [h0, insertDay] at hlen
  · simp only [h0, if_false] at hlen
    apply h0
    simp [countDays, hlen]

theorem foldl_entries_fields (l : List SmokeEntry) (s : SmokeLogger) :
    l.foldl (fun s e => { s with Entries := s.Entries.insert e.ID e }) s =
      { s with Entries := l.foldl (fun m e => m.insert e.ID e) s.Entries } := by
  induction l generalizing s with
  | nil => rfl
  | cons a l ih =>
    simp only [List.foldl_cons]
    rw [ih]

theorem lookup_foldl_insert (l : List SmokeEntry) (m : GoMap SmokeEntry)
    (hl : (l.map SmokeEntry.ID).Nodup) (k : Int) (e : SmokeEntry) :
    (l.foldl (fun m e => m.insert e.ID e) m).lookup k = some e ↔
      (e ∈ l ∧ e.ID = k) ∨ (k ∉ l.map SmokeEntry.ID ∧ m.lookup k = some e) := by
  induction l generalizing m with
  | nil => simp
  | cons a l ih =>
    simp only [List.map_cons, List.nodup_cons] at hl
    simp only [List.foldl_cons]
    rw [ih _ hl.2]
    by_cases hk : k = a.ID
    · subst hk
      simp only [AList.lookup_insert, Option.some.injEq, List.mem_cons, List.map_cons]
      constructor
      · rintro (⟨he, hid⟩ | ⟨_, rfl⟩)
        · exact absurd (hid ▸ List.mem_map_of_mem _ he) hl.1
        · exact Or.inl ⟨Or.inl rfl, rfl⟩
      · rintro (⟨rfl | he, hid⟩ | ⟨hn, _⟩)
        · exact Or.inr ⟨hl.1, rfl⟩
        · exact absurd (hid ▸ List.mem_map_of_mem _ he) hl.1
        · exact absurd (Or.inl trivial) hn
    · rw [AList.lookup_insert_ne hk]
      simp only [List.mem_cons, List.map_cons]
      constructor
      · rintro (⟨he, hid⟩ | ⟨hn, hm⟩)
        · exact Or.inl ⟨Or.inr he, hid⟩
        · refine Or.inr ⟨?_, hm⟩
          rintro (h | h)
          · exact hk h
          · exact hn h
      · rintro (⟨rfl | he, hid⟩ | ⟨hn, hm⟩)
        · exact absurd hid.symm hk
        · exact Or.inl ⟨he, hid⟩
        · exact Or.inr ⟨fun h => hn (Or.inr h), hm⟩

theorem NextDay_eq (sl : SmokeLogger) (now : Time) :
    NextDay sl now = gotoCurrentDay { sl with CurrentDay := sl.CurrentDay + 1 } now := rfl

theorem PrevDay_eq (sl : SmokeLogger) (now : Time) :
    PrevDay sl now = gotoCurrentDay { sl with CurrentDay := sl.CurrentDay - 1 } now := rfl

theorem gotoCurrentDay_ok (sl sl' : SmokeLogger) (now : Time)
    (hok : gotoCurrentDay sl now = .ok sl') :
    ∃ day, sl.Days.lookup sl.CurrentDay = some day ∧
      sl' = { sl with
        Entries := mapOfEntries (selectEntriesBetween sl.db day.StartTS (day.EndTS.getD now)) } := by
  unfold gotoCurrentDay at hok
  cases hday : sl.Days.lookup sl.CurrentDay with
  | none => rw [hday] at hok; cases hok
  | some day =>
    rw [hday] at hok
    simp only [LoadEntriesByDay, foldl_entries_fields, Except.ok.injEq] at hok
    refine ⟨day, rfl, ?_⟩
    rw [← hok]
    cases day.EndTS <;> rfl

theorem gotoCurrentDay_of_lookup (sl : SmokeLogger) (now : Time) (day : DayEntry)
    (hday : sl.Days.lookup sl.CurrentDay = some day) :
    gotoCurrentDay sl now = .ok { sl with
      Entries := mapOfEntries (selectEntriesBetween sl.db day.StartTS (day.EndTS.getD now)) } := by
  unfold gotoCurrentDay
  rw [hday]
  simp only [LoadEntriesByDay, foldl_entries_fields]
  cases day.EndTS <;> rfl

theorem mem_selectEntriesBetween (db : DB) (lo hi : Time) (e : SmokeEntry) :
    e ∈ selectEntriesBetween db lo hi ↔ e ∈ db.smoke_entries ∧ lo ≤ e.TS ∧ e.TS ≤ hi := by
  unfold selectEntriesBetween
  rw [(List.perm_insertionSort _ _).mem_iff]
  simp [List.mem_filter]

theorem nodup_selectEntriesBetween (db : DB) (lo hi : Time)
    (h : (db.smoke_entries.map SmokeEntry.ID).Nodup) :
    ((selectEntriesBetween db lo hi).map SmokeEntry.ID).Nodup := by
  unfold selectEntriesBetween
  have hp := (List.perm_insertionSort (fun a b : SmokeEntry => a.TS ≤ b.TS)
    (db.smoke_entries.filter (fun e => decide (lo ≤ e.TS) && decide (e.TS ≤ hi)))).map
      SmokeEntry.ID
  rw [hp.nodup_iff]
  exact (List.filter_sublist _).map SmokeEntry.ID |>.nodup h

/-! ## What holds of every reachable ledger -/

theorem Reachable.inv {sl : SmokeLogger} {c : Time} (h : Reachable sl c) : Inv sl c := by
  induction h with
  | boot db c t1 t2 hdb h1 h2 =>
    refine ⟨?_, ?_, InitDB_current _ _ _⟩
    · rw [NewSmokeLogger, (InitDB_fields _ _ _).1]; exact hdb.1
    · rw [NewSmokeLogger, (InitDB_fields _ _ _).1]
      intro e he
      exact le_trans (hdb.2 e he) (le_trans h1 h2)
  | @initDB sl c _ t1 t2 h1 h2 ih =>
    refine ⟨?_, ?_, InitDB_current _ _ _⟩
    · rw [(InitDB_fields _ _ _).1]; exact ih.1
    · rw [(InitDB_fields _ _ _).1]
      intro e he
      exact le_trans (ih.2.1 e he) (le_trans h1 h2)
  | @addEntry sl sl' e c _ t h1 hok ih =>
    rw [AddEntry_ok] at hok
    simp only [Except.ok.injEq, Prod.mk.injEq] at hok
    obtain ⟨_, rfl⟩ := hok
    refine ⟨?_, ?_, ih.2.2⟩
    · simp only [insertEntry, List.map_append, List.map_cons, List.map_nil]
      rw [List.nodup_append]
      refine ⟨ih.1, List.nodup_singleton _, ?_⟩
      intro a ha hb
      obtain ⟨x, hx, rfl⟩ := List.mem_map.mp ha
      have := lt_nextEntryId sl.db x hx
      simp only [List.mem_singleton] at hb
      omega
    · intro x hx
      simp only [insertEntry, List.mem_append, List.mem_singleton] at hx
      rcases hx with hx | rfl
      · exact le_trans (ih.2.1 x hx) h1
      · exact le_refl _
  | @deleteEntry sl c _ id ih =>
    refine ⟨?_, ?_, ih.2.2⟩
    · exact ((List.filter_sublist _).map SmokeEntry.ID).nodup ih.1
    · intro x hx
      exact ih.2.1 x (List.mem_of_mem_filter hx)
  | @newDay sl c _ t1 t2 h1 h2 ih =>
    refine ⟨ih.1, ?_, ?_⟩
    · intro x hx
      exact le_trans (ih.2.1 x hx) (le_trans h1 h2)
    · simp only [NewDay, AList.lookup_insert, Option.isSome_some]
  | @nextDay sl sl' c _ t h1 hok ih =>
    obtain ⟨day, hday, rfl⟩ := gotoCurrentDay_ok _ _ _ hok
    refine ⟨ih.1, ?_, ?_⟩
    · intro x hx
      exact le_trans (ih.2.1 x hx) h1
    · simp only at hday ⊢
      rw [hday]; rfl
  | @prevDay sl sl' c _ t h1 hok ih =>
    obtain ⟨day, hday, rfl⟩ := gotoCurrentDay_ok _ _ _ hok
    refine ⟨ih.1, ?_, ?_⟩
    · intro x hx
      exact le_trans (ih.2.1 x hx) h1
    · simp only at hday ⊢
      rw [hday]; rfl

theorem lookup_erase_some (m : GoMap SmokeEntry) (id k : Int) (e : SmokeEntry)
    (h : (m.erase id).lookup k = some e) : k ≠ id ∧ m.lookup k = some e := by
  by_cases hk : k = id
  · rw [hk, AList.lookup_erase] at h
    cases h
  · exact ⟨hk, by rw [← AList.lookup_erase_ne hk]; exact h⟩

theorem lookup_mapOfEntries (l : List SmokeEntry) (hl : (l.map SmokeEntry.ID).Nodup)
    (k : Int) (e : SmokeEntry) :
    (mapOfEntries l).lookup k = some e ↔ e ∈ l ∧ e.ID = k := by
  unfold mapOfEntries
  rw [lookup_foldl_insert l ∅ hl]
  simp

theorem ledgerTwoEvents_lookup (k : Int) (e : SmokeEntry)
    (h : ledgerTwoEvents.Entries.lookup k = some e) : e = ⟨1, 1, 1⟩ ∨ e = ⟨2, 2, 2⟩ := by
  have hm := AList.mem_lookup_iff.mp h
  simp [ledgerTwoEvents, AList.insert, List.kinsert, List.kerase] at hm
  rcases hm with ⟨_, rfl⟩ | ⟨_, rfl⟩
  · exact Or.inr rfl
  · exact Or.inl rfl

theorem reachable_freshLedger : Reachable freshLedger 0 :=
  Reachable.boot emptyDB 0 0 0 ⟨List.nodup_nil, fun _ h => by cases h⟩
    (le_refl _) (le_refl _)

/-! ## Claims -/

/-- C4: in a ledger whose loaded events all have `Value >= 0`, after
`DeleteEntry(id)` the map `Entries` has no key `id`, every other key holds what
it held, the store has no event with that id and keeps its other rows, and
`Counter` is the largest `Value` left in `Entries`, or `0` when none is left. -/
theorem DeleteEntry_spec (sl : SmokeLogger) (id : Int)
    (hnn : ∀ k e, sl.Entries.lookup k = some e → 0 ≤ e.Value) :
    (DeleteEntry sl id).Entries.lookup id = none ∧
    (∀ k, k ≠ id → (DeleteEntry sl id).Entries.lookup k = sl.Entries.lookup k) ∧
    (∀ e, e ∈ (DeleteEntry sl id).db.smoke_entries ↔ e ∈ sl.db.smoke_entries ∧ e.ID ≠ id) ∧
    (DeleteEntry sl id).db.days = sl.db.days ∧
    (∀ k e, (DeleteEntry sl id).Entries.lookup k = some e → e.Value ≤ (DeleteEntry sl id).Counter) ∧
    ((∃ k e, (DeleteEntry sl id).Entries.lookup k = some e ∧
        e.Value = (DeleteEntry sl id).Counter) ∨
      ((DeleteEntry sl id).Entries.entries = [] ∧ (DeleteEntry sl id).Counter = 0)) := by
  refine ⟨?_, ?_, ?_, rfl, ?_, ?_⟩
  · rw [DeleteEntry_Entries]; exact AList.lookup_erase id sl.Entries
  · intro k hk
    rw [DeleteEntry_Entries]; exact AList.lookup_erase_ne hk
  · intro e
    simp [DeleteEntry, deleteEntryById]
  · intro k e h
    rw [DeleteEntry_Counter]; rw [DeleteEntry_Entries] at h
    exact maxValue_ge _ k e h
  · rw [DeleteEntry_Counter, DeleteEntry_Entries]
    rcases maxValue_attained (sl.Entries.erase id) with h0 | h
    · cases hent : (sl.Entries.erase id).entries with
      | nil => exact Or.inr ⟨rfl, h0⟩
      | cons p l =>
        left
        have hp : (sl.Entries.erase id).lookup p.1 = some p.2 :=
          AList.mem_lookup_iff.mpr (by rw [hent]; exact List.mem_cons_self _ _)
        have hle := maxValue_ge _ _ _ hp
        have hk : p.1 ≠ id := by
          intro hk
          rw [hk, AList.lookup_erase] at hp
          cases hp
        have h0p : 0 ≤ p.2.Value := hnn p.1 p.2 (by rw [← AList.lookup_erase_ne hk]; exact hp)
        exact ⟨p.1, p.2, hp, by omega⟩
    · exact Or.inl h

/-- Witness of C4: the event of value 2 is deleted from `ledgerTwoEvents`. -/
theorem DeleteEntry_spec_witness :
    (DeleteEntry ledgerTwoEvents 2).Entries.lookup 2 = none ∧
    (∀ k, k ≠ 2 → (DeleteEntry ledgerTwoEvents 2).Entries.lookup k =
      ledgerTwoEvents.Entries.lookup k) :=
  ⟨(DeleteEntry_spec ledgerTwoEvents 2 (fun k e h => by
      rcases ledgerTwoEvents_lookup k e h with rfl | rfl <;> decide)).1,
    (DeleteEntry_spec ledgerTwoEvents 2 (fun k e h => by
      rcases ledgerTwoEvents_lookup k e h with rfl | rfl <;> decide)).2.1⟩

/-- C7: whatever sessions of the store are open, after `NewDay` the store has
exactly one session with a null end, the new one, whose start is the time of
the call and whose id, an id no earlier session has, is the new `CurrentDay`;
the earlier sessions keep their order, those that were open are closed at that
same time and those that were closed are unchanged. -/
theorem NewDay_store (sl : SmokeLogger) (now now2 : Time) :
    (NewDay sl now now2).db.days.filter (fun d => decide (d.EndTS = none)) =
      [⟨(NewDay sl now now2).CurrentDay, now, none⟩] ∧
    (NewDay sl now now2).db.days.getLast? = some ⟨(NewDay sl now now2).CurrentDay, now, none⟩ ∧
    (∀ d ∈ sl.db.days, d.ID ≠ (NewDay sl now now2).CurrentDay) ∧
    List.Forall₂
      (fun old new => (old.EndTS = none → new = { old with EndTS := some now }) ∧
        (old.EndTS ≠ none → new = old))
      sl.db.days (NewDay sl now now2).db.days.dropLast := by
  have hcur : (NewDay sl now now2).CurrentDay = nextDayId sl.db :=
    nextDayId_closeOpenDays sl.db now
  have hdays : (NewDay sl now now2).db.days =
      sl.db.days.map (fun d => if d.EndTS = none then { d with EndTS := some now } else d) ++
        [⟨(NewDay sl now now2).CurrentDay, now, none⟩] := rfl
  refine ⟨?_, ?_, ?_, ?_⟩
  · rw [hdays, List.filter_append]
    have hnil : (sl.db.days.map
        (fun d => if d.EndTS = none then { d with EndTS := some now } else d)).filter
        (fun d => decide (d.EndTS = none)) = [] := by
      rw [List.filter_eq_nil_iff]
      intro d hd
      obtain ⟨d0, _, rfl⟩ := List.mem_map.mp hd
      by_cases h0 : d0.EndTS = none
      · simp [h0]
      · simp [h0]
    rw [hnil]
    simp
  · rw [hdays]; simp
  · intro d hd
    have := lt_nextDayId sl.db d hd
    rw [hcur]
    omega
  · rw [hdays, List.dropLast_concat, List.forall₂_map_right_iff, List.forall₂_same]
    intro d _
    by_cases h0 : d.EndTS = none
    · simp [h0]
    · simp [h0]

/-- C10: when the id the store gives to the new session is not yet a key of
`Days`, `NewDay` makes that id `CurrentDay`, puts one more session into `Days`,
under that id and with a nil `EndTS`, and leaves every other key of `Days` with
the session it had, its `EndTS` included; so after bootstrap on the empty store
and one `NewDay`, `Days` has 2 sessions and `Days[1].EndTS` is nil. -/
theorem NewDay_Days (sl : SmokeLogger) (now now2 : Time)
    (hfresh : sl.Days.lookup (nextDayId sl.db) = none) :
    (NewDay sl now now2).CurrentDay = nextDayId sl.db ∧
    (NewDay sl now now2).Days.lookup (nextDayId sl.db) =
      some ⟨nextDayId sl.db, now2, none⟩ ∧
    (∀ k, k ≠ nextDayId sl.db → (NewDay sl now now2).Days.lookup k = sl.Days.lookup k) ∧
    (NewDay sl now now2).Days.entries.length = sl.Days.entries.length + 1 ∧
    (∀ t0 t0' : Time,
      (NewDay (NewSmokeLogger emptyDB t0 t0') now now2).Days.entries.length = 2 ∧
      ((NewDay (NewSmokeLogger emptyDB t0 t0') now now2).Days.get 1).EndTS = none) := by
  have hcur : (NewDay sl now now2).CurrentDay = nextDayId sl.db :=
    nextDayId_closeOpenDays sl.db now
  have hdays : (NewDay sl now now2).Days =
      sl.Days.insert (NewDay sl now now2).CurrentDay
        ⟨(NewDay sl now now2).CurrentDay, now2, none⟩ := rfl
  refine ⟨hcur, ?_, ?_, ?_, ?_⟩
  · rw [hdays, hcur]; exact AList.lookup_insert _
  · intro k hk
    rw [hdays, hcur]; exact AList.lookup_insert_ne hk
  · rw [hdays, hcur, AList.insert_entries_of_neg (AList.lookup_eq_none.mp hfresh)]
    rfl
  · intro t0 t0'
    exact ⟨rfl, rfl⟩

/-- Witness of C10: the ledger bootstrapped on the empty store, whose next
session id is 2. -/
theorem NewDay_Days_witness :
    (NewSmokeLogger emptyDB 0 0).Days.lookup (nextDayId (NewSmokeLogger emptyDB 0 0).db) = none ∧
    (NewDay (NewSmokeLogger emptyDB 0 0) 1 1).CurrentDay = 2 ∧
    (NewDay (NewSmokeLogger emptyDB 0 0) 1 1).Days.entries.length = 2 :=
  ⟨by decide, (NewDay_Days (NewSmokeLogger emptyDB 0 0) 1 1 (by decide)).1,
    (NewDay_Days (NewSmokeLogger emptyDB 0 0) 1 1 (by decide)).2.2.2.1⟩

/-- C1: after bootstrap on the empty store and any calls of `AddEntry` and
`NewDay`, of which n-1 are `AddEntry`, a further call of `AddEntry` returns: its
event has `Value` n and the id the store assigns, is a row of the store, is in
`Entries` under that id, and `Counter` is n. -/
theorem AddEntry_nth (t0 t0' : Time) (ops : List Op)
    (hops : ∀ op ∈ ops, op.isAddOrNewDay = true) (t : Time) :
    ∃ sl e sl', run (NewSmokeLogger emptyDB t0 t0') ops = .ok sl ∧
      AddEntry sl t = .ok (e, sl') ∧
      e.Value = (countAdds ops : Int) + 1 ∧
      e.ID = nextEntryId sl.db ∧
      e ∈ sl'.db.smoke_entries ∧
      sl'.Entries.lookup e.ID = some e ∧
      sl'.Counter = (countAdds ops : Int) + 1 := by
  have hrun : ∀ (ops : List Op) (s : SmokeLogger), (∀ op ∈ ops, op.isAddOrNewDay = true) →
      ∃ s', run s ops = .ok s' ∧ s'.Counter = s.Counter + (countAdds ops : Int) := by
    intro ops
    induction ops with
    | nil => intro s _; exact ⟨s, rfl, by simp [countAdds]⟩
    | cons op ops ih =>
      intro s h
      have hop := h op (List.mem_cons_self _ _)
      have hrest : ∀ o ∈ ops, o.isAddOrNewDay = true :=
        fun o ho => h o (List.mem_cons_of_mem _ ho)
      cases op with
      | addEntry now =>
        obtain ⟨s', hs', hc⟩ := ih _ hrest
        refine ⟨s', ?_, ?_⟩
        · simp only [run, step, AddEntry_ok, Except.map]
          exact hs'
        · rw [hc]
          simp only [countAdds, List.filter_cons, Op.isAdd, if_true, List.length_cons]
          push_cast
          omega
      | newDay now now2 =>
        obtain ⟨s', hs', hc⟩ := ih (NewDay s now now2) hrest
        refine ⟨s', ?_, ?_⟩
        · simp only [run, step]
          exact hs'
        · rw [hc]
          simp [countAdds, List.filter_cons, Op.isAdd, NewDay]
      | deleteEntry id => cases hop
      | nextDay now => cases hop
      | prevDay now => cases hop
      | initDB now now2 => cases hop
  obtain ⟨sl, hsl, hc⟩ := hrun ops (NewSmokeLogger emptyDB t0 t0') hops
  have h0 : (NewSmokeLogger emptyDB t0 t0').Counter = 0 := rfl
  rw [h0, zero_add] at hc
  refine ⟨sl, _, _, hsl, AddEntry_ok sl t, ?_, rfl, ?_, ?_, ?_⟩
  · simp only [hc]
  · simp [insertEntry]
  · simp only [AList.lookup_insert]
  · simp only [hc]

/-- Witness of C1: the third `AddEntry`, with a `NewDay` before it. -/
theorem AddEntry_nth_witness :
    ∃ sl e sl', run (NewSmokeLogger emptyDB 0 0) [.addEntry 1, .newDay 2 2, .addEntry 3] = .ok sl ∧
      AddEntry sl 4 = .ok (e, sl') ∧
      e.Value = (countAdds [.addEntry 1, .newDay 2 2, .addEntry 3] : Int) + 1 ∧
      e.ID = nextEntryId sl.db ∧
      e ∈ sl'.db.smoke_entries ∧
      sl'.Entries.lookup e.ID = some e ∧
      sl'.Counter = (countAdds [.addEntry 1, .newDay 2 2, .addEntry 3] : Int) + 1 :=
  AddEntry_nth 0 0 [.addEntry 1, .newDay 2 2, .addEntry 3] (by decide) 4

/-- C2 fails in the code: bootstrap leaves `Entries` empty and `Counter` 0 on
every store, and on `storeWithEvent`, bootstrapped at time 10, the session in
focus is session 1 and `LoadEntriesByDay` returns the stored event for it. -/
theorem NewSmokeLogger_drops_loaded_entries :
    (∀ (db : DB) (t1 t2 : Time),
      (NewSmokeLogger db t1 t2).Entries = ∅ ∧ (NewSmokeLogger db t1 t2).Counter = 0) ∧
    (NewSmokeLogger storeWithEvent 10 10).CurrentDay = 1 ∧
    (LoadEntriesByDay (NewSmokeLogger storeWithEvent 10 10)
      ((NewSmokeLogger storeWithEvent 10 10).Days.get
        (NewSmokeLogger storeWithEvent 10 10).CurrentDay) 10).1 = [⟨1, 5, 1⟩] ∧
    (NewSmokeLogger storeWithEvent 10 10).Entries.lookup 1 = none :=
  ⟨fun _ t1 t2 => ⟨(InitDB_fields _ t1 t2).2.1, (InitDB_fields _ t1 t2).2.2⟩, rfl, rfl, rfl⟩

/-- C5 as stated fails on the ledger bootstrapped on the empty store, which has
no session 2: `NextDay` ends with `CurrentDay` moved to 2. -/
theorem NextDay_missing_counterexample :
    freshLedger.Days.lookup (freshLedger.CurrentDay + 1) = none ∧
    ¬ ∃ c, NextDay freshLedger 1 = .error c ∧ c.sl.CurrentDay = freshLedger.CurrentDay ∧
      c.sl.Entries = freshLedger.Entries := by
  refine ⟨rfl, ?_⟩
  rintro ⟨c, hc, hcur, _⟩
  have h : NextDay freshLedger 1 =
      .error ⟨.dayNotFound 2, { freshLedger with CurrentDay := 2 }⟩ := rfl
  rw [h] at hc
  injection hc with hc
  subst hc
  exact absurd hcur (by decide)

/-- C5, amended: when `Days` has no session under `CurrentDay+1`, `NextDay`
ends the process on "day does not exist", with `CurrentDay` already moved to
`CurrentDay+1` and the store, `Entries`, `Days` and `Counter` as before the
call; the same for `PrevDay` and `CurrentDay-1`. -/
theorem NextDay_PrevDay_missing (sl : SmokeLogger) (now : Time) :
    (sl.Days.lookup (sl.CurrentDay + 1) = none →
      NextDay sl now = .error ⟨.dayNotFound (sl.CurrentDay + 1),
        ⟨sl.db, sl.Entries, sl.Days, sl.Counter, sl.CurrentDay + 1⟩⟩) ∧
    (sl.Days.lookup (sl.CurrentDay - 1) = none →
      PrevDay sl now = .error ⟨.dayNotFound (sl.CurrentDay - 1),
        ⟨sl.db, sl.Entries, sl.Days, sl.Counter, sl.CurrentDay - 1⟩⟩) := by
  constructor
  · intro h
    simp only [NextDay, gotoCurrentDay, h]
  · intro h
    simp only [PrevDay, gotoCurrentDay, h]

/-- Witness of C5, amended: the ledger bootstrapped on the empty store has
neither a session 2 nor a session 0. -/
theorem NextDay_PrevDay_missing_witness :
    (freshLedger.Days.lookup (freshLedger.CurrentDay + 1) = none ∧
      NextDay freshLedger 1 = .error ⟨.dayNotFound (freshLedger.CurrentDay + 1),
        ⟨freshLedger.db, freshLedger.Entries, freshLedger.Days, freshLedger.Counter,
          freshLedger.CurrentDay + 1⟩⟩) ∧
    (freshLedger.Days.lookup (freshLedger.CurrentDay - 1) = none ∧
      PrevDay freshLedger 1 = .error ⟨.dayNotFound (freshLedger.CurrentDay - 1),
        ⟨freshLedger.db, freshLedger.Entries, freshLedger.Days, freshLedger.Counter,
          freshLedger.CurrentDay - 1⟩⟩) :=
  ⟨⟨rfl, (NextDay_PrevDay_missing freshLedger 1).1 rfl⟩,
    ⟨rfl, (NextDay_PrevDay_missing freshLedger 1).2 rfl⟩⟩

/-- C8: `LoadEntriesByDay(d)` leaves the ledger, store included, as it was and
returns the stored events whose timestamp lies between `d.StartTS` and `d.EndTS`,
or the time of the call when `d.EndTS` is nil: each of these rows once, in
ascending timestamp order.  An event that `AddEntry` records after `NewDay` is
returned for `Days[CurrentDay]`, the new session, at any later time. -/
theorem LoadEntriesByDay_spec (sl : SmokeLogger) (d : DayEntry) (now : Time) :
    (LoadEntriesByDay sl d now).2 = sl ∧
    (LoadEntriesByDay sl d now).1.Perm
      (sl.db.smoke_entries.filter
        (fun e => decide (d.StartTS ≤ e.TS ∧ e.TS ≤ d.EndTS.getD now))) ∧
    (LoadEntriesByDay sl d now).1.Sorted (fun a b => a.TS ≤ b.TS) ∧
    (∀ t1 t2 t3 t4 : Time, t2 ≤ t3 → t3 ≤ t4 →
      ∃ e sl', AddEntry (NewDay sl t1 t2) t3 = .ok (e, sl') ∧
        sl'.CurrentDay = (NewDay sl t1 t2).CurrentDay ∧
        e ∈ (LoadEntriesByDay sl' (sl'.Days.get sl'.CurrentDay) t4).1) := by
  have hload : ∀ (s : SmokeLogger) (d : DayEntry) (n : Time),
      (LoadEntriesByDay s d n).1 = selectEntriesBetween s.db d.StartTS (d.EndTS.getD n) := by
    intro s d n
    unfold LoadEntriesByDay
    cases d.EndTS <;> rfl
  refine ⟨rfl, ?_, ?_, ?_⟩
  · rw [hload]
    unfold selectEntriesBetween
    refine (List.perm_insertionSort _ _).trans ?_
    apply List.Perm.of_eq
    apply List.filter_congr
    intro e _
    simp [Bool.decide_and]
  · rw [hload]
    unfold selectEntriesBetween
    have htot : IsTotal SmokeEntry (fun a b => a.TS ≤ b.TS) := ⟨fun a b => le_total a.TS b.TS⟩
    have htrans : IsTrans SmokeEntry (fun a b => a.TS ≤ b.TS) :=
      ⟨fun a b c hab hbc => le_trans hab hbc⟩
    exact List.sorted_insertionSort _ _
  · intro t1 t2 t3 t4 h23 h34
    refine ⟨_, _, AddEntry_ok _ t3, rfl, ?_⟩
    rw [hload, mem_selectEntriesBetween]
    have hday : (NewDay sl t1 t2).Days.get (NewDay sl t1 t2).CurrentDay =
        ⟨(NewDay sl t1 t2).CurrentDay, t2, none⟩ := by
      simp only [GoMap.get, NewDay, AList.lookup_insert, Option.getD_some]
    refine ⟨?_, ?_, ?_⟩
    · simp [insertEntry]
    · show (GoMap.get (NewDay sl t1 t2).Days (NewDay sl t1 t2).CurrentDay).StartTS ≤ t3
      rw [hday]
      exact h23
    · show t3 ≤ ((NewDay sl t1 t2).Days.get (NewDay sl t1 t2).CurrentDay).EndTS.getD t4
      rw [hday]
      exact h34

/-- Witness of C8: on the ledger bootstrapped on the empty store, `NewDay` at
time 1, `AddEntry` at time 3 and the load at time 4. -/
theorem LoadEntriesByDay_spec_witness :
    ∃ e sl', AddEntry (NewDay freshLedger 1 1) 3 = .ok (e, sl') ∧
      sl'.CurrentDay = (NewDay freshLedger 1 1).CurrentDay ∧
      e ∈ (LoadEntriesByDay sl' (sl'.Days.get sl'.CurrentDay) 4).1 :=
  (LoadEntriesByDay_spec freshLedger default 0).2.2.2 1 1 3 4 (by decide) (by decide)

/-- C9: on a reachable ledger, two calls of `LoadEntriesByDay(d)` in a row, the
first at a time `t1` and the second at a time `t2` not earlier, return the same
sequence of events, for a closed `d` and for an open one. -/
theorem LoadEntriesByDay_twice (sl : SmokeLogger) (c : Time) (hr : Reachable sl c)
    (d : DayEntry) (t1 t2 : Time) (h1 : c ≤ t1) (h2 : t1 ≤ t2) :
    (LoadEntriesByDay (LoadEntriesByDay sl d t1).2 d t2).1 = (LoadEntriesByDay sl d t1).1 := by
  unfold LoadEntriesByDay
  simp only
  cases hd : d.EndTS with
  | some e => rfl
  | none =>
    simp only
    unfold selectEntriesBetween
    congr 1
    apply List.filter_congr
    intro e he
    have hle := hr.inv.2.1 e he
    have e1 : e.TS ≤ t1 := le_trans hle h1
    have e2 : e.TS ≤ t2 := le_trans e1 h2
    simp [e1, e2]

/-- Witness of C9: the ledger bootstrapped on `storeWithEvent` at time 10, the
open session 1 loaded at times 11 and 12. -/
theorem LoadEntriesByDay_twice_witness :
    (LoadEntriesByDay (LoadEntriesByDay (NewSmokeLogger storeWithEvent 10 10)
        ⟨1, 0, none⟩ 11).2 ⟨1, 0, none⟩ 12).1 =
      (LoadEntriesByDay (NewSmokeLogger storeWithEvent 10 10) ⟨1, 0, none⟩ 11).1 :=
  LoadEntriesByDay_twice _ 10
    (Reachable.boot storeWithEvent 10 10 10 ⟨by decide, by decide⟩ (le_refl _)
      (le_refl _))
    ⟨1, 0, none⟩ 11 12 (by decide) (by decide)

/-- C3 as stated fails on the reachable ledger `ledgerStaleCounter`: the loaded
event 1 has value 1, less than the value 2 of the loaded event 2, and
`DeleteEntry(1)` moves `Counter` from 0 to 2. -/
theorem DeleteEntry_counter_counterexample :
    run freshLedger staleCounterCalls = .ok ledgerStaleCounter ∧
    Reachable ledgerStaleCounter 7 ∧
    ¬ holdsMax ledgerStaleCounter 1 ∧
    ledgerStaleCounter.Counter = 0 ∧
    (DeleteEntry ledgerStaleCounter 1).Counter = 2 := by
  refine ⟨rfl, ?_, ?_, rfl, rfl⟩
  · have r1 : Reachable _ 1 :=
      Reachable.addEntry reachable_freshLedger 1 (by decide) (AddEntry_ok _ _)
    have r2 : Reachable _ 2 := Reachable.addEntry r1 2 (by decide) (AddEntry_ok _ _)
    have r3 : Reachable _ 3 := Reachable.newDay r2 3 3 (by decide) (by decide)
    have r4 : Reachable _ 4 := Reachable.prevDay r3 4 (by decide)
      (by rw [PrevDay_eq]; exact gotoCurrentDay_of_lookup _ 4 ⟨1, 0, none⟩ rfl)
    have r5 : Reachable _ 5 := Reachable.nextDay r4 5 (by decide)
      (by rw [NextDay_eq]; exact gotoCurrentDay_of_lookup _ 5 ⟨2, 3, none⟩ rfl)
    have r6 : Reachable _ 6 := Reachable.addEntry r5 6 (by decide) (AddEntry_ok _ _)
    have r7 : Reachable _ 6 := Reachable.deleteEntry r6 3
    exact Reachable.prevDay r7 7 (by decide) rfl
  · rintro ⟨e, he, hmax⟩
    have he1 : e = ⟨1, 1, 1⟩ := by
      have h1 : ledgerStaleCounter.Entries.lookup 1 = some ⟨1, 1, 1⟩ := rfl
      rw [h1] at he
      exact (Option.some.inj he).symm
    have h2 : ledgerStaleCounter.Entries.lookup 2 = some ⟨2, 2, 2⟩ := rfl
    have := hmax 2 _ h2
    rw [he1] at this
    exact absurd this (by decide)

/-- C3, amended: in a ledger whose `Counter` is the largest of 0 and the
`Value`s of the loaded events, after `DeleteEntry(id)` the map `Entries` holds
the loaded events other than `id` and `Counter` is the largest of 0 and the
`Value`s of these remaining events: it is the largest remaining `Value` (the
next-highest loaded value, when the event `id` held the largest) whenever some
remaining `Value` is at least 0, and it is 0 when no event remains or every
remaining `Value` is negative; `Counter` never goes up, and it is unchanged
when the event `id` does not hold the largest loaded `Value` or is not
loaded. -/
theorem DeleteEntry_counter (sl : SmokeLogger) (id : Int)
    (h0 : 0 ≤ sl.Counter)
    (hub : ∀ k e, sl.Entries.lookup k = some e → e.Value ≤ sl.Counter)
    (hatt : sl.Counter = 0 ∨ ∃ k e, sl.Entries.lookup k = some e ∧ e.Value = sl.Counter) :
    ((DeleteEntry sl id).Entries.lookup id = none ∧
      ∀ k, k ≠ id → (DeleteEntry sl id).Entries.lookup k = sl.Entries.lookup k) ∧
    0 ≤ (DeleteEntry sl id).Counter ∧
    (∀ k e, (DeleteEntry sl id).Entries.lookup k = some e →
      e.Value ≤ (DeleteEntry sl id).Counter) ∧
    ((DeleteEntry sl id).Counter = 0 ∨
      ∃ k e, (DeleteEntry sl id).Entries.lookup k = some e ∧
        e.Value = (DeleteEntry sl id).Counter) ∧
    ((∃ k e, (DeleteEntry sl id).Entries.lookup k = some e ∧ 0 ≤ e.Value) →
      ∃ k e, (DeleteEntry sl id).Entries.lookup k = some e ∧
        e.Value = (DeleteEntry sl id).Counter) ∧
    ((∀ k e, (DeleteEntry sl id).Entries.lookup k = some e → e.Value < 0) →
      (DeleteEntry sl id).Counter = 0) ∧
    (DeleteEntry sl id).Counter ≤ sl.Counter ∧
    (¬ holdsMax sl id → (DeleteEntry sl id).Counter = sl.Counter) := by
  have hnn : 0 ≤ (DeleteEntry sl id).Counter := by
    rw [DeleteEntry_Counter]; exact maxValue_nonneg _
  have hge : ∀ k e, (DeleteEntry sl id).Entries.lookup k = some e →
      e.Value ≤ (DeleteEntry sl id).Counter := by
    intro k e h
    rw [DeleteEntry_Entries] at h
    rw [DeleteEntry_Counter]
    exact maxValue_ge _ k e h
  have hat : (DeleteEntry sl id).Counter = 0 ∨
      ∃ k e, (DeleteEntry sl id).Entries.lookup k = some e ∧
        e.Value = (DeleteEntry sl id).Counter := by
    rw [DeleteEntry_Counter, DeleteEntry_Entries]
    exact maxValue_attained _
  have hle : (DeleteEntry sl id).Counter ≤ sl.Counter := by
    rcases hat with h | ⟨k, e, hk, hv⟩
    · rw [h]; exact h0
    · rw [← hv]
      rw [DeleteEntry_Entries] at hk
      exact hub k e (lookup_erase_some _ _ _ _ hk).2
  refine ⟨⟨?_, ?_⟩, hnn, hge, hat, ?_, ?_, hle, ?_⟩
  · rw [DeleteEntry_Entries]; exact AList.lookup_erase id sl.Entries
  · intro k hk
    rw [DeleteEntry_Entries]; exact AList.lookup_erase_ne hk
  · rintro ⟨k, e, hk, hv⟩
    rcases hat with h | h
    · have := hge k e hk
      exact ⟨k, e, hk, by omega⟩
    · exact h
  · intro hneg
    rcases hat with h | ⟨k, e, hk, hv⟩
    · exact h
    · have := hneg k e hk
      omega
  · intro hnot
    apply le_antisymm hle
    rcases hatt with h | ⟨k, e, hk, hv⟩
    · rw [h]; exact hnn
    · have hne : k ≠ id := by
        rintro rfl
        exact hnot ⟨e, hk, fun k' e' h' => hv ▸ hub k' e' h'⟩
      rw [← hv]
      apply hge k e
      rw [DeleteEntry_Entries, AList.lookup_erase_ne hne]
      exact hk

/-- Witness of C3, amended: `ledgerTwoEvents`, whose `Counter` 2 is the largest
loaded value, and the event 2 that holds it: `Counter` goes down to 1, the value
of the event that remains. -/
theorem DeleteEntry_counter_witness :
    ledgerTwoEvents.Counter = 2 ∧
    (DeleteEntry ledgerTwoEvents 2).Entries.lookup 1 = some ⟨1, 1, 1⟩ ∧
    (DeleteEntry ledgerTwoEvents 2).Counter = 1 ∧
    (∃ k e, (DeleteEntry ledgerTwoEvents 2).Entries.lookup k = some e ∧
      e.Value = (DeleteEntry ledgerTwoEvents 2).Counter) ∧
    (DeleteEntry ledgerTwoEvents 2).Counter ≤ ledgerTwoEvents.Counter :=
  ⟨rfl, rfl, rfl,
    (DeleteEntry_counter ledgerTwoEvents 2 (by decide)
      (fun k e h => by
        rcases ledgerTwoEvents_lookup k e h with rfl | rfl <;> decide)
      (Or.inr ⟨2, ⟨2, 2, 2⟩, rfl, rfl⟩)).2.2.2.2.1 ⟨1, ⟨1, 1, 1⟩, rfl, by decide⟩,
    (DeleteEntry_counter ledgerTwoEvents 2 (by decide)
      (fun k e h => by
        rcases ledgerTwoEvents_lookup k e h with rfl | rfl <;> decide)
      (Or.inr ⟨2, ⟨2, 2, 2⟩, rfl, rfl⟩)).2.2.2.2.2.2.1⟩

/-- C6 as stated fails on the reachable ledger `ledgerBackOnDay1`, whose
`CurrentDay` is 1 while the store holds sessions 1 and 2: `NewDay` then
`PrevDay` leaves `CurrentDay` at 2. -/
theorem NewDay_PrevDay_counterexample :
    run freshLedger [.newDay 1 1, .prevDay 2] = .ok ledgerBackOnDay1 ∧
    Reachable ledgerBackOnDay1 2 ∧
    ledgerBackOnDay1.CurrentDay = 1 ∧
    ∃ sl', PrevDay (NewDay ledgerBackOnDay1 3 3) 4 = .ok sl' ∧ sl'.CurrentDay = 2 := by
  refine ⟨rfl, ?_, rfl, _, rfl, rfl⟩
  have r1 : Reachable _ 1 :=
    Reachable.newDay reachable_freshLedger 1 1 (by decide) (by decide)
  exact Reachable.prevDay r1 2 (by decide) rfl

/-- C6, amended: on a reachable ledger whose `CurrentDay` is the id just below
the id the store gives to the new session, `NewDay` followed by `PrevDay`
succeeds and leaves `CurrentDay` as it was before `NewDay`, on the same
in-memory session `d`, with `Entries` holding exactly the stored events whose
timestamp lies between `d.StartTS` and `d.EndTS`, or, when `d.EndTS` is nil, the
time at which `NewDay` closed the open sessions. -/
theorem NewDay_PrevDay (sl : SmokeLogger) (c : Time) (hr : Reachable sl c)
    (t1 t2 t3 : Time) (h1 : c ≤ t1) (h2 : t1 ≤ t2) (h3 : t2 ≤ t3)
    (hlast : sl.CurrentDay + 1 = nextDayId sl.db) :
    ∃ sl' d, PrevDay (NewDay sl t1 t2) t3 = .ok sl' ∧
      sl.Days.lookup sl.CurrentDay = some d ∧
      sl'.CurrentDay = sl.CurrentDay ∧
      sl'.Days.lookup sl'.CurrentDay = some d ∧
      sl'.db.smoke_entries = sl.db.smoke_entries ∧
      ∀ k e, sl'.Entries.lookup k = some e ↔
        (e ∈ sl.db.smoke_entries ∧ e.ID = k ∧ d.StartTS ≤ e.TS ∧ e.TS ≤ d.EndTS.getD t1) := by
  obtain ⟨hnodup, hpast, hcur⟩ := hr.inv
  obtain ⟨d, hd⟩ := Option.isSome_iff_exists.mp hcur
  have hnew : (NewDay sl t1 t2).CurrentDay = nextDayId sl.db :=
    nextDayId_closeOpenDays sl.db t1
  have hback : (NewDay sl t1 t2).CurrentDay - 1 = sl.CurrentDay := by
    rw [hnew]; omega
  have hne : sl.CurrentDay ≠ (NewDay sl t1 t2).CurrentDay := by
    rw [hnew]; omega
  have hlook : (NewDay sl t1 t2).Days.lookup ((NewDay sl t1 t2).CurrentDay - 1) = some d := by
    rw [hback]
    have : (NewDay sl t1 t2).Days = sl.Days.insert (NewDay sl t1 t2).CurrentDay
        ⟨(NewDay sl t1 t2).CurrentDay, t2, none⟩ := rfl
    rw [this, AList.lookup_insert_ne hne]
    exact hd
  refine ⟨_, d, gotoCurrentDay_of_lookup _ t3 d hlook, hd, hback, hlook, rfl, ?_⟩
  intro k e
  have hstore : (NewDay sl t1 t2).db.smoke_entries = sl.db.smoke_entries := rfl
  show (mapOfEntries (selectEntriesBetween (NewDay sl t1 t2).db d.StartTS
    (d.EndTS.getD t3))).lookup k = some e ↔ _
  rw [lookup_mapOfEntries _ (nodup_selectEntriesBetween _ _ _ (hstore ▸ hnodup)),
    mem_selectEntriesBetween, hstore]
  constructor
  · rintro ⟨⟨he, hlo, hhi⟩, hid⟩
    refine ⟨he, hid, hlo, ?_⟩
    cases hend : d.EndTS with
    | none => exact le_trans (hpast e he) h1
    | some x => rw [hend] at hhi; exact hhi
  · rintro ⟨he, hid, hlo, hhi⟩
    refine ⟨⟨he, hlo, ?_⟩, hid⟩
    cases hend : d.EndTS with
    | none => exact le_trans (hpast e he) (le_trans h1 (le_trans h2 h3))
    | some x => rw [hend] at hhi; exact hhi

/-- Witness of C6, amended: the ledger bootstrapped on the empty store, whose
`CurrentDay` 1 is just below the next session id 2. -/
theorem NewDay_PrevDay_witness :
    ∃ sl' d, PrevDay (NewDay freshLedger 1 1) 2 = .ok sl' ∧
      freshLedger.Days.lookup freshLedger.CurrentDay = some d ∧
      sl'.CurrentDay = freshLedger.CurrentDay ∧
      sl'.Days.lookup sl'.CurrentDay = some d ∧
      sl'.db.smoke_entries = freshLedger.db.smoke_entries ∧
      ∀ k e, sl'.Entries.lookup k = some e ↔
        (e ∈ freshLedger.db.smoke_entries ∧ e.ID = k ∧ d.StartTS ≤ e.TS ∧
          e.TS ≤ d.EndTS.getD 1) :=
  NewDay_PrevDay freshLedger 0 reachable_freshLedger 1 1 2 (by decide) (by decide) (by decide) rfl

end Domain
